import Mathlib

/-!
A shallow embedding of the SLIP framing module `slipsocket.py`: the
byte-stuffing codec (`encode` / `decode`) and the packet-assembly buffer
`_Buffer` with its `get`, `reset` and `unread_bytes` operations.

Bytes are modelled as `Nat` and byte strings as `List Nat`.  The read
primitive bound to a `_Buffer` is modelled by the list of chunks it
successively returns; an exhausted chunk list, or an explicit empty chunk,
models a read call that returns zero bytes (which the source turns into
`EOFError`).
-/

/-- SLIP `<END>` symbol `b'\xc0'` (source constant `_END`). -/
def _END : Nat := 0xc0

/-- SLIP `<ESC>` symbol `b'\xdb'` (source constant `_ESC`). -/
def _ESC : Nat := 0xdb

/-- SLIP `<ESC_END>` sequence `b'\xdb\xdc'` (source constant `_ESC_END`). -/
def _ESC_END : List Nat := [0xdb, 0xdc]

/-- SLIP `<ESC_ESC>` sequence `b'\xdb\xdd'` (source constant `_ESC_ESC`). -/
def _ESC_ESC : List Nat := [0xdb, 0xdd]

/-- Python `bytes.replace(old, new)` specialised to the one-byte patterns the
module uses (`_ESC` and `_END` in `encode`): every byte equal to `a` is
replaced by the byte string `r`, scanning left to right. -/
def replace1 (a : Nat) (r : List Nat) : List Nat → List Nat
  | [] => []
  | x :: l => if x = a then r ++ replace1 a r l else x :: replace1 a r l

/-- Python `bytes.replace(old, new)` specialised to the two-byte patterns the
module uses (`_ESC_END` and `_ESC_ESC` in `decode`): each leftmost,
non-overlapping occurrence of the pair `a, b` is replaced by `r`; the
replacement is not rescanned. -/
def replace2 (a b : Nat) (r : List Nat) : List Nat → List Nat
  | [] => []
  | [x] => [x]
  | x :: y :: l =>
    if x = a ∧ y = b then r ++ replace2 a b r l
    else x :: replace2 a b r (y :: l)

/-- The predicate `bytes.strip(_END)` and `bytes.lstrip(_END)` strip by:
membership in the one-byte set `{_END}`. -/
def isEnd (b : Nat) : Bool := b == _END

/-- Python `packet.strip(_END)`: remove every leading and every trailing
`END` byte. -/
def pyStrip (s : List Nat) : List Nat :=
  ((s.dropWhile isEnd).reverse.dropWhile isEnd).reverse

/-- `encode` from `slipsocket.py` (lines 62-78):
`_END + data.replace(_ESC, _ESC_ESC).replace(_END, _ESC_END) + _END`. -/
def encode (data : List Nat) : List Nat :=
  _END :: (replace1 _END _ESC_END (replace1 _ESC _ESC_ESC data) ++ [_END])

/-- `decode` from `slipsocket.py` (lines 80-96):
`packet.strip(_END).replace(_ESC_END, _END).replace(_ESC_ESC, _ESC)`. -/
def decode (packet : List Nat) : List Nat :=
  replace2 0xdb 0xdd [_ESC] (replace2 0xdb 0xdc [_END] (pyStrip packet))

/-- Spec-side: the per-byte stuffing map of the wire format section —
`ESC` becomes the escaped-ESC sequence, `END` becomes the escaped-END
sequence, and any other byte is passed through unchanged.  Substituting
byte-by-byte makes it evident that bytes introduced by ESC-escaping are
never themselves re-escaped. -/
def stuffSpec : List Nat → List Nat
  | [] => []
  | b :: t =>
    (if b = _ESC then _ESC_ESC else if b = _END then _ESC_END else [b]) ++ stuffSpec t

/-- Spec-side: simultaneous single-pass unstuffing — every escaped-END
sequence `0xdb 0xdc` becomes a literal `END` byte `0xc0`, every escaped-ESC
sequence `0xdb 0xdd` becomes a literal `ESC` byte `0xdb`, all other bytes
pass through. -/
def unstuffSpec : List Nat → List Nat
  | [] => []
  | [x] => [x]
  | x :: y :: rest =>
    if x = 0xdb ∧ y = 0xdc then 0xc0 :: unstuffSpec rest
    else if x = 0xdb ∧ y = 0xdd then 0xdb :: unstuffSpec rest
    else x :: unstuffSpec (y :: rest)

/-- Spec-side: strip any leading and trailing run of `END` bytes (one or
more, in any count, including none). -/
def stripSpec (s : List Nat) : List Nat :=
  ((s.dropWhile isEnd).reverse.dropWhile isEnd).reverse

/-- Index of the first `END` byte, mirroring `bytearray.find(_END)` at the
one place `get` calls it (where an `END` byte is guaranteed to be present). -/
def findEnd : List Nat → Nat
  | [] => 0
  | b :: t => if b = _END then 0 else findEnd t + 1

/-- The assembler state of class `_Buffer`: the internal byte buffer
`data`, the total count `bytes_read` of bytes pulled from the source, and
the count `pos` of bytes already folded into emitted packets. -/
structure _Buffer where
  data : List Nat
  bytes_read : Nat
  pos : Nat
deriving DecidableEq

/-- `_Buffer.reset(pos)` (lines 112-120): clear the internal buffer and set
both counters to `pos`. -/
def _Buffer.reset (_st : _Buffer) (pos : Nat) : _Buffer :=
  { data := [], bytes_read := pos, pos := pos }

/-- A freshly constructed `_Buffer`: `__init__` calls `reset()` with the
default position `0`. -/
def initBuffer : _Buffer :=
  { data := [], bytes_read := 0, pos := 0 }

/-- `unread_bytes` (lines 159-162): `bytes_read - pos`.  The counters are
natural numbers here; the reachable-state invariant `pos ≤ bytes_read`
(proved below) makes truncated subtraction agree with Python's integers. -/
def _Buffer.unread_bytes (st : _Buffer) : Nat :=
  st.bytes_read - st.pos

/-- Result of one while-loop of `_Buffer.get` that pulls chunks until the
buffer satisfies the loop's exit condition: `ready` when the condition is
met, `eof` when a pull returned zero bytes (`raise EOFError()`), in both
cases together with the buffer state and the chunks not yet pulled. -/
inductive FillRes where
  | ready (st : _Buffer) (chunks : List (List Nat))
  | eof (st : _Buffer) (chunks : List (List Nat))
deriving DecidableEq

/-- First while-loop of `_Buffer.get` (lines 129-135): while the buffer
holds only `END` bytes (`set(self.data) <= set(_END)`), pull a chunk and
append it, advancing `bytes_read`; a zero-byte pull raises `EOFError`. -/
def fillNonEnd (st : _Buffer) (chunks : List (List Nat)) : FillRes :=
  if ∀ b ∈ st.data, b = _END then
    match chunks with
    | [] => .eof st []
    | c :: rest =>
      if c = [] then .eof st rest
      else fillNonEnd ⟨st.data ++ c, st.bytes_read + c.length, st.pos⟩ rest
  else .ready st chunks

/-- Second while-loop of `_Buffer.get` (lines 142-148): while the buffer
contains no `END` byte, pull a chunk and append it, advancing `bytes_read`;
a zero-byte pull raises `EOFError`. -/
def fillHasEnd (st : _Buffer) (chunks : List (List Nat)) : FillRes :=
  if _END ∈ st.data then .ready st chunks
  else
    match chunks with
    | [] => .eof st []
    | c :: rest =>
      if c = [] then .eof st rest
      else fillHasEnd ⟨st.data ++ c, st.bytes_read + c.length, st.pos⟩ rest

/-- Result of one `_Buffer.get` call: a decoded packet (`msg`) or
`EOFError` (`eof`), with the buffer state after the call and the chunks
the read primitive has not yet delivered. -/
inductive GetRes where
  | msg (m : List Nat) (st : _Buffer) (chunks : List (List Nat))
  | eof (st : _Buffer) (chunks : List (List Nat))
deriving DecidableEq

/-- `_Buffer.get` (lines 122-157): pull until the buffer holds a non-`END`
byte, strip the leading `END` run (advancing `pos` by the number stripped),
pull until the buffer holds an `END` byte, then split at the first `END`:
the bytes before it are the packet (decoded and returned) and the packet
plus its trailing `END` are dropped from the buffer, advancing `pos`. -/
def _Buffer.get (st : _Buffer) (chunks : List (List Nat)) : GetRes :=
  match fillNonEnd st chunks with
  | .eof st1 ch1 => .eof st1 ch1
  | .ready st1 ch1 =>
    let stripped := st1.data.dropWhile isEnd
    let st2 : _Buffer :=
      ⟨stripped, st1.bytes_read, st1.pos + (st1.data.length - stripped.length)⟩
    match fillHasEnd st2 ch1 with
    | .eof st3 ch3 => .eof st3 ch3
    | .ready st3 ch3 =>
      let i := findEnd st3.data
      .msg (decode (st3.data.take i))
        ⟨st3.data.drop (i + 1), st3.bytes_read, st3.pos + (i + 1)⟩ ch3

/-- The message of a `get` result, if any. -/
def msgOf : GetRes → Option (List Nat)
  | .msg m _ _ => some m
  | .eof _ _ => none

/-- Repeatedly call `get`, collecting decoded messages until `EOFError`,
with explicit fuel. -/
def driveF : Nat → _Buffer → List (List Nat) → List (List Nat)
  | 0, _, _ => []
  | fuel + 1, st, chunks =>
    match _Buffer.get st chunks with
    | .eof _ _ => []
    | .msg m st' ch' => m :: driveF fuel st' ch'

/-- Repeatedly call `get` until `EOFError`, collecting the decoded messages.
Each successful `get` consumes at least one byte of the combined stream
(buffer plus undelivered chunks), so that quantity plus one is enough fuel. -/
def drive (st : _Buffer) (chunks : List (List Nat)) : List (List Nat) :=
  driveF (st.data.length + chunks.flatten.length + 1) st chunks

/-- The bytes an assembler still has to work through: the internal buffer
followed by the chunks the read primitive has not yet delivered, with the
leading `END` run removed. -/
def pending (st : _Buffer) (chunks : List (List Nat)) : List Nat :=
  (st.data ++ chunks.flatten).dropWhile isEnd

/-- Fuelled worker for `extractAll`. -/
def extractAllF : Nat → List Nat → List (List Nat)
  | 0, _ => []
  | fuel + 1, s =>
    if _END ∈ s.dropWhile isEnd then
      decode ((s.dropWhile isEnd).take (findEnd (s.dropWhile isEnd)))
        :: extractAllF fuel ((s.dropWhile isEnd).drop (findEnd (s.dropWhile isEnd) + 1))
    else []

/-- Spec-side: the messages contained in a byte stream, read off the stream
content alone: drop the leading `END` run; if no `END` byte remains there is
no complete frame; otherwise the bytes up to the first `END` decode to the
next message and the rest of the stream is processed the same way.  Each
step removes at least one byte, so `s.length + 1` fuel always suffices. -/
def extractAll (s : List Nat) : List (List Nat) :=
  extractAllF (s.length + 1) s

/-- The `_Buffer` states reachable from construction or any `reset(p)` by
sequences of `get` calls, successful or failing. -/
inductive Reachable : _Buffer → Prop where
  | reset (p : Nat) : Reachable { data := [], bytes_read := p, pos := p }
  | msgStep {st : _Buffer} {chunks : List (List Nat)} {m : List Nat}
      {st' : _Buffer} {ch' : List (List Nat)} :
      Reachable st → _Buffer.get st chunks = .msg m st' ch' → Reachable st'
  | eofStep {st : _Buffer} {chunks : List (List Nat)}
      {st' : _Buffer} {ch' : List (List Nat)} :
      Reachable st → _Buffer.get st chunks = .eof st' ch' → Reachable st'

/-! ## Basic facts about `isEnd`, `dropWhile`, `findEnd`, `take` and `drop` -/

theorem isEnd_eq_true {b : Nat} (h : b = _END) : isEnd b = true := by
  simp [isEnd, h]

theorem isEnd_eq_false {b : Nat} (h : b ≠ _END) : isEnd b = false := by
  simp [isEnd, h]

theorem dropWhile_end_cons {b : Nat} (h : b = _END) (l : List Nat) :
    (b :: l).dropWhile isEnd = l.dropWhile isEnd := by
  simp [List.dropWhile_cons, isEnd_eq_true h]

theorem dropWhile_ne_cons {b : Nat} (h : b ≠ _END) (l : List Nat) :
    (b :: l).dropWhile isEnd = b :: l := by
  simp [List.dropWhile_cons, isEnd_eq_false h]

theorem dropWhile_all_end {l : List Nat} (h : ∀ b ∈ l, b = _END) :
    l.dropWhile isEnd = [] := by
  induction l with
  | nil => rfl
  | cons x t ih =>
    rw [dropWhile_end_cons (h x (by simp))]
    exact ih fun b hb => h b (by simp [hb])

theorem dropWhile_all_ne {l : List Nat} (h : ∀ b ∈ l, b ≠ _END) :
    l.dropWhile isEnd = l := by
  cases l with
  | nil => rfl
  | cons x t => exact dropWhile_ne_cons (h x (by simp)) t

theorem dropWhile_append_not_all {l : List Nat} (t : List Nat)
    (h : ¬ ∀ b ∈ l, b = _END) :
    (l ++ t).dropWhile isEnd = l.dropWhile isEnd ++ t := by
  induction l with
  | nil => exact absurd (by simp) h
  | cons x s ih =>
    by_cases hx : x = _END
    · have hs : ¬ ∀ b ∈ s, b = _END := by
        intro hall
        exact h fun b hb => by
          rcases List.mem_cons.mp hb with h1 | h1
          · exact h1 ▸ hx
          · exact hall b h1
      rw [List.cons_append, dropWhile_end_cons hx, dropWhile_end_cons hx]
      exact ih hs
    · rw [List.cons_append, dropWhile_ne_cons hx, dropWhile_ne_cons hx,
        List.cons_append]

theorem dropWhile_head_ne {l : List Nat} (h : ¬ ∀ b ∈ l, b = _END) :
    ∃ x xs, l.dropWhile isEnd = x :: xs ∧ x ≠ _END := by
  induction l with
  | nil => exact absurd (by simp) h
  | cons x s ih =>
    by_cases hx : x = _END
    · have hs : ¬ ∀ b ∈ s, b = _END := by
        intro hall
        exact h fun b hb => by
          rcases List.mem_cons.mp hb with h1 | h1
          · exact h1 ▸ hx
          · exact hall b h1
      rw [dropWhile_end_cons hx]
      exact ih hs
    · exact ⟨x, s, dropWhile_ne_cons hx s, hx⟩

theorem dropWhile_len_le (l : List Nat) : (l.dropWhile isEnd).length ≤ l.length := by
  induction l with
  | nil => simp
  | cons x t ih =>
    by_cases hx : x = _END
    · rw [dropWhile_end_cons hx]
      exact Nat.le_trans ih (by simp)
    · rw [dropWhile_ne_cons hx]

theorem findEnd_cons_end (l : List Nat) : findEnd (_END :: l) = 0 := by
  simp [findEnd]

theorem findEnd_cons_ne {b : Nat} (h : b ≠ _END) (l : List Nat) :
    findEnd (b :: l) = findEnd l + 1 := by
  simp [findEnd, h]

theorem findEnd_lt_of_mem {l : List Nat} (h : _END ∈ l) :
    findEnd l < l.length := by
  induction l with
  | nil => cases h
  | cons x t ih =>
    by_cases hx : x = _END
    · rw [hx, findEnd_cons_end]
      simp
    · rcases List.mem_cons.mp h with h1 | h1
      · exact absurd h1.symm hx
      · rw [findEnd_cons_ne hx]
        simpa using Nat.succ_lt_succ (ih h1)

theorem findEnd_append_of_mem {l : List Nat} (t : List Nat) (h : _END ∈ l) :
    findEnd (l ++ t) = findEnd l := by
  induction l with
  | nil => cases h
  | cons x s ih =>
    by_cases hx : x = _END
    · rw [hx, List.cons_append, findEnd_cons_end, findEnd_cons_end]
    · rcases List.mem_cons.mp h with h1 | h1
      · exact absurd h1.symm hx
      · rw [List.cons_append, findEnd_cons_ne hx, findEnd_cons_ne hx, ih h1]

theorem findEnd_no_end_append {s : List Nat} (t : List Nat)
    (h : ∀ b ∈ s, b ≠ _END) : findEnd (s ++ _END :: t) = s.length := by
  induction s with
  | nil => simp [findEnd_cons_end]
  | cons x u ih =>
    rw [List.cons_append, findEnd_cons_ne (h x (by simp)),
      ih fun b hb => h b (by simp [hb])]
    simp

theorem take_findEnd_no_end (l : List Nat) : ∀ b ∈ l.take (findEnd l), b ≠ _END := by
  induction l with
  | nil => simp
  | cons x t ih =>
    by_cases hx : x = _END
    · rw [hx, findEnd_cons_end]
      simp
    · rw [findEnd_cons_ne hx, List.take_succ_cons]
      intro b hb
      rcases List.mem_cons.mp hb with h1 | h1
      · exact h1 ▸ hx
      · exact ih b h1

theorem take_append_le {n : Nat} {s : List Nat} (t : List Nat) (h : n ≤ s.length) :
    (s ++ t).take n = s.take n := by
  induction s generalizing n with
  | nil =>
    have : n = 0 := Nat.le_zero.mp h
    simp [this]
  | cons x u ih =>
    cases n with
    | zero => simp
    | succ k =>
      rw [List.cons_append, List.take_succ_cons, List.take_succ_cons,
        ih (Nat.le_of_succ_le_succ h)]

theorem drop_append_le {n : Nat} {s : List Nat} (t : List Nat) (h : n ≤ s.length) :
    (s ++ t).drop n = s.drop n ++ t := by
  induction s generalizing n with
  | nil =>
    have : n = 0 := Nat.le_zero.mp h
    simp [this]
  | cons x u ih =>
    cases n with
    | zero => simp
    | succ k =>
      rw [List.cons_append, List.drop_succ_cons, List.drop_succ_cons,
        ih (Nat.le_of_succ_le_succ h)]

/-! ## Facts about the byte-stuffing transforms -/

theorem replace1_append (a : Nat) (r u v : List Nat) :
    replace1 a r (u ++ v) = replace1 a r u ++ replace1 a r v := by
  induction u with
  | nil => simp [replace1]
  | cons x s ih =>
    by_cases hx : x = a
    · simp [replace1, hx, ih]
    · simp [replace1, hx, ih]

theorem replace2_cons_ne {a x : Nat} (b' : Nat) (r : List Nat) (h : x ≠ a)
    (l : List Nat) : replace2 a b' r (x :: l) = x :: replace2 a b' r l := by
  cases l with
  | nil => simp [replace2]
  | cons y t => simp [replace2, h]

theorem replace2_match (a b' : Nat) (r l : List Nat) :
    replace2 a b' r (a :: b' :: l) = r ++ replace2 a b' r l := by
  simp [replace2]

theorem replace2_pair_ne {b' y : Nat} (a x : Nat) (r : List Nat) (h : y ≠ b')
    (l : List Nat) :
    replace2 a b' r (x :: y :: l) = x :: replace2 a b' r (y :: l) := by
  have : ¬ (x = a ∧ y = b') := fun hc => h hc.2
  simp [replace2, this]

theorem replace2_ne_nil {a b' : Nat} {r l : List Nat} (hr : r ≠ []) (hl : l ≠ []) :
    replace2 a b' r l ≠ [] := by
  cases l with
  | nil => exact absurd rfl hl
  | cons x t =>
    cases t with
    | nil => simp [replace2]
    | cons y u =>
      by_cases hc : x = a ∧ y = b'
      · rw [hc.1, hc.2, replace2_match]
        simp [hr]
      · simp only [replace2, hc, if_false]
        simp

theorem stuffSpec_no_end (m : List Nat) : ∀ x ∈ stuffSpec m, x ≠ _END := by
  induction m with
  | nil => simp [stuffSpec]
  | cons b t ih =>
    intro x hx
    simp only [stuffSpec, List.mem_append] at hx
    rcases hx with hx | hx
    · by_cases h1 : b = _ESC
      · rw [if_pos h1] at hx
        have : x = 0xdb ∨ x = 0xdd := by simpa [_ESC_ESC] using hx
        rcases this with h | h <;> rw [h] <;> decide
      · rw [if_neg h1] at hx
        by_cases h2 : b = _END
        · rw [if_pos h2] at hx
          have : x = 0xdb ∨ x = 0xdc := by simpa [_ESC_END] using hx
          rcases this with h | h <;> rw [h] <;> decide
        · rw [if_neg h2] at hx
          have : x = b := by simpa using hx
          exact this ▸ h2
    · exact ih x hx

theorem stuffSpec_ne_nil {m : List Nat} (h : m ≠ []) : stuffSpec m ≠ [] := by
  cases m with
  | nil => exact absurd rfl h
  | cons b t =>
    show (if b = _ESC then _ESC_ESC else if b = _END then _ESC_END else [b])
      ++ stuffSpec t ≠ []
    by_cases h1 : b = _ESC
    · rw [if_pos h1]
      simp [_ESC_ESC]
    · rw [if_neg h1]
      by_cases h2 : b = _END
      · rw [if_pos h2]
        simp [_ESC_END]
      · rw [if_neg h2]
        simp

theorem stuffed_eq (m : List Nat) :
    replace1 _END _ESC_END (replace1 _ESC _ESC_ESC m) = stuffSpec m := by
  induction m with
  | nil => rfl
  | cons b t ih =>
    by_cases h1 : b = _ESC
    · rw [h1]
      show replace1 _END _ESC_END (replace1 _ESC _ESC_ESC (_ESC :: t)) = _
      rw [show replace1 _ESC _ESC_ESC (_ESC :: t)
          = _ESC_ESC ++ replace1 _ESC _ESC_ESC t from by simp [replace1]]
      rw [replace1_append, ih]
      rw [show replace1 _END _ESC_END _ESC_ESC = _ESC_ESC from by decide]
      simp [stuffSpec]
    · by_cases h2 : b = _END
      · rw [h2]
        rw [show replace1 _ESC _ESC_ESC (_END :: t)
            = _END :: replace1 _ESC _ESC_ESC t from by
          simp [replace1, show _END ≠ _ESC from by decide]]
        rw [show replace1 _END _ESC_END (_END :: replace1 _ESC _ESC_ESC t)
            = _ESC_END ++ replace1 _END _ESC_END (replace1 _ESC _ESC_ESC t) from by
          simp [replace1]]
        rw [ih]
        simp [stuffSpec, show ¬ _END = _ESC from by decide]
      · rw [show replace1 _ESC _ESC_ESC (b :: t)
            = b :: replace1 _ESC _ESC_ESC t from by simp [replace1, h1]]
        rw [show replace1 _END _ESC_END (b :: replace1 _ESC _ESC_ESC t)
            = b :: replace1 _END _ESC_END (replace1 _ESC _ESC_ESC t) from by
          simp [replace1, h2]]
        rw [ih]
        simp [stuffSpec, h1, h2]

theorem encode_eq (m : List Nat) : encode m = _END :: (stuffSpec m ++ [_END]) := by
  rw [encode, stuffed_eq]

/-- Heads of the output of the first decode pass: if the input starts with a
byte other than `0xdd`, so does the output. -/
theorem replace2_head_not_dd {y : Nat} (rest : List Nat) (hy : y ≠ 0xdd) :
    ∃ z t, replace2 0xdb 0xdc [_END] (y :: rest) = z :: t ∧ z ≠ 0xdd := by
  by_cases hyb : y = 0xdb
  · cases rest with
    | nil => exact ⟨y, [], by simp [replace2], hy⟩
    | cons w u =>
      by_cases hw : w = 0xdc
      · refine ⟨_END, replace2 0xdb 0xdc [_END] u, ?_, by decide⟩
        rw [hyb, hw, replace2_match]
        rfl
      · refine ⟨y, replace2 0xdb 0xdc [_END] (w :: u), ?_, hy⟩
        exact replace2_pair_ne 0xdb y [_END] hw u
  · exact ⟨y, replace2 0xdb 0xdc [_END] rest, replace2_cons_ne 0xdc [_END] hyb rest, hy⟩

/-- The two sequential `replace` passes of `decode` compute the simultaneous
single-pass unstuffing. -/
theorem seq_eq_sim (l : List Nat) :
    replace2 0xdb 0xdd [_ESC] (replace2 0xdb 0xdc [_END] l) = unstuffSpec l := by
  induction l using unstuffSpec.induct with
  | case1 => rfl
  | case2 x => rfl
  | case3 x y rest h ih =>
    obtain ⟨hx, hy⟩ := h
    subst hx
    subst hy
    rw [replace2_match]
    rw [show ([_END] ++ replace2 0xdb 0xdc [_END] rest : List Nat)
        = _END :: replace2 0xdb 0xdc [_END] rest from rfl]
    rw [replace2_cons_ne 0xdd [_ESC] (show _END ≠ 0xdb from by decide), ih]
    rw [show unstuffSpec (0xdb :: 0xdc :: rest) = 0xc0 :: unstuffSpec rest from by
      simp [unstuffSpec]]
    rfl
  | case4 x y rest h1 h2 ih =>
    obtain ⟨hx, hy⟩ := h2
    subst hx
    subst hy
    rw [replace2_pair_ne 0xdb 0xdb [_END] (show (0xdd : Nat) ≠ 0xdc from by decide)]
    rw [replace2_cons_ne 0xdc [_END] (show (0xdd : Nat) ≠ 0xdb from by decide)]
    rw [replace2_match, ih]
    rw [show unstuffSpec (0xdb :: 0xdd :: rest) = 0xdb :: unstuffSpec rest from by
      simp [unstuffSpec]]
    rfl
  | case5 x y rest h1 h2 ih =>
    by_cases hx : x = 0xdb
    · subst hx
      have hy1 : y ≠ 0xdc := fun hc => h1 ⟨rfl, hc⟩
      have hy2 : y ≠ 0xdd := fun hc => h2 ⟨rfl, hc⟩
      rw [replace2_pair_ne 0xdb 0xdb [_END] hy1]
      obtain ⟨z, t, hz, hzd⟩ := replace2_head_not_dd rest hy2
      rw [hz]
      rw [replace2_pair_ne 0xdb 0xdb [_ESC] hzd]
      rw [← hz, ih]
      rw [show unstuffSpec (0xdb :: y :: rest) = 0xdb :: unstuffSpec (y :: rest) from by
        simp [unstuffSpec, hy1, hy2]]
    · rw [replace2_cons_ne 0xdc [_END] hx]
      rw [replace2_cons_ne 0xdd [_ESC] hx]
      rw [ih]
      have c1 : ¬ (x = 0xdb ∧ y = 0xdc) := fun hc => hx hc.1
      have c2 : ¬ (x = 0xdb ∧ y = 0xdd) := fun hc => hx hc.1
      simp [unstuffSpec, c1, c2]

theorem unstuffSpec_cons_ne {b : Nat} (h : b ≠ 0xdb) (l : List Nat) :
    unstuffSpec (b :: l) = b :: unstuffSpec l := by
  cases l with
  | nil => rfl
  | cons y t =>
    have c1 : ¬ (b = 0xdb ∧ y = 0xdc) := fun hc => h hc.1
    have c2 : ¬ (b = 0xdb ∧ y = 0xdd) := fun hc => h hc.1
    simp [unstuffSpec, c1, c2]

theorem unstuff_stuff (m : List Nat) : unstuffSpec (stuffSpec m) = m := by
  induction m with
  | nil => rfl
  | cons b t ih =>
    by_cases h1 : b = _ESC
    · subst h1
      have hs : stuffSpec (_ESC :: t) = 0xdb :: 0xdd :: stuffSpec t := by
        simp [stuffSpec, _ESC_ESC]
      rw [hs]
      rw [show unstuffSpec (0xdb :: 0xdd :: stuffSpec t)
          = 0xdb :: unstuffSpec (stuffSpec t) from by simp [unstuffSpec]]
      rw [ih]
      rfl
    · by_cases h2 : b = _END
      · subst h2
        have hs : stuffSpec (_END :: t) = 0xdb :: 0xdc :: stuffSpec t := by
          simp [stuffSpec, _ESC_END, show _END ≠ _ESC from by decide]
        rw [hs]
        rw [show unstuffSpec (0xdb :: 0xdc :: stuffSpec t)
            = 0xc0 :: unstuffSpec (stuffSpec t) from by simp [unstuffSpec]]
        rw [ih]
        rfl
      · have hs : stuffSpec (b :: t) = b :: stuffSpec t := by
          simp [stuffSpec, h1, h2]
        rw [hs, unstuffSpec_cons_ne (fun hc => h1 (hc.trans rfl)) (stuffSpec t), ih]

/-! ## Facts about `pyStrip` and `decode` -/

theorem pyStrip_no_end {l : List Nat} (h : ∀ b ∈ l, b ≠ _END) : pyStrip l = l := by
  unfold pyStrip
  rw [dropWhile_all_ne h]
  rw [dropWhile_all_ne fun b hb => h b (List.mem_reverse.mp hb)]
  exact l.reverse_reverse

theorem pyStrip_frame {s : List Nat} (h : ∀ b ∈ s, b ≠ _END) :
    pyStrip (_END :: (s ++ [_END])) = s := by
  unfold pyStrip
  rw [dropWhile_end_cons rfl]
  cases s with
  | nil =>
    rw [List.nil_append, dropWhile_end_cons rfl]
    rfl
  | cons a t =>
    rw [List.cons_append, dropWhile_ne_cons (h a (by simp)) (t ++ [_END])]
    rw [show a :: (t ++ [_END]) = (a :: t) ++ [_END] from rfl]
    rw [List.reverse_append]
    rw [show [_END].reverse ++ (a :: t).reverse = _END :: (a :: t).reverse from rfl]
    rw [dropWhile_end_cons rfl]
    rw [dropWhile_all_ne fun b hb => h b (List.mem_reverse.mp hb)]
    exact (a :: t).reverse_reverse

theorem decode_no_end {p : List Nat} (h : ∀ b ∈ p, b ≠ _END) :
    decode p = unstuffSpec p := by
  unfold decode
  rw [pyStrip_no_end h]
  exact seq_eq_sim p

theorem decode_stuffSpec (m : List Nat) : decode (stuffSpec m) = m := by
  rw [decode_no_end (stuffSpec_no_end m)]
  exact unstuff_stuff m

theorem decode_encode (m : List Nat) : decode (encode m) = m := by
  rw [encode_eq]
  unfold decode
  rw [pyStrip_frame (stuffSpec_no_end m), seq_eq_sim, unstuff_stuff]

example : encode [0xc0] = [0xc0, 0xdb, 0xdc, 0xc0] := by decide
example : encode [0xdb] = [0xc0, 0xdb, 0xdd, 0xc0] := by decide
example : decode [0xc0, 0xc0, 0xc0, 0x74, 0x65, 0x78, 0x74, 0xc0, 0xc0] =
    [0x74, 0x65, 0x78, 0x74] := by decide
example : decode (encode [0xdb, 0xc0, 0x41]) = [0xdb, 0xc0, 0x41] := by decide
example : _Buffer.get initBuffer [[0xc0, 0x41, 0xc0]] =
    .msg [0x41] ⟨[], 3, 3⟩ [] := by decide
example : drive initBuffer [[0xc0, 0x41], [0xc0, 0xc0, 0x42, 0xc0]] =
    [[0x41], [0x42]] := by decide
example : extractAll [0xc0, 0x41, 0xc0, 0xc0, 0x42, 0xc0] = [[0x41], [0x42]] := by
  decide

/-! ## Unfolding equations of the two pull loops -/

theorem fillNonEnd_not_all {st : _Buffer} (chunks : List (List Nat))
    (h : ¬ ∀ b ∈ st.data, b = _END) : fillNonEnd st chunks = .ready st chunks := by
  rw [fillNonEnd.eq_def, if_neg h]

theorem fillNonEnd_all_nil {st : _Buffer} (h : ∀ b ∈ st.data, b = _END) :
    fillNonEnd st [] = .eof st [] := by
  rw [fillNonEnd.eq_def, if_pos h]

theorem fillNonEnd_all_cons_nil {st : _Buffer} (rest : List (List Nat))
    (h : ∀ b ∈ st.data, b = _END) : fillNonEnd st ([] :: rest) = .eof st rest := by
  rw [fillNonEnd.eq_def, if_pos h]
  simp

theorem fillNonEnd_all_cons {st : _Buffer} {c : List Nat} (rest : List (List Nat))
    (h : ∀ b ∈ st.data, b = _END) (hc : c ≠ []) :
    fillNonEnd st (c :: rest)
      = fillNonEnd ⟨st.data ++ c, st.bytes_read + c.length, st.pos⟩ rest := by
  conv_lhs => rw [fillNonEnd.eq_def]
  rw [if_pos h]
  exact if_neg hc

theorem fillHasEnd_mem {st : _Buffer} (chunks : List (List Nat))
    (h : _END ∈ st.data) : fillHasEnd st chunks = .ready st chunks := by
  rw [fillHasEnd.eq_def, if_pos h]

theorem fillHasEnd_not_mem_nil {st : _Buffer} (h : _END ∉ st.data) :
    fillHasEnd st [] = .eof st [] := by
  rw [fillHasEnd.eq_def, if_neg h]

theorem fillHasEnd_not_mem_cons_nil {st : _Buffer} (rest : List (List Nat))
    (h : _END ∉ st.data) : fillHasEnd st ([] :: rest) = .eof st rest := by
  rw [fillHasEnd.eq_def, if_neg h]
  simp

theorem fillHasEnd_not_mem_cons {st : _Buffer} {c : List Nat} (rest : List (List Nat))
    (h : _END ∉ st.data) (hc : c ≠ []) :
    fillHasEnd st (c :: rest)
      = fillHasEnd ⟨st.data ++ c, st.bytes_read + c.length, st.pos⟩ rest := by
  conv_lhs => rw [fillHasEnd.eq_def]
  rw [if_neg h]
  exact if_neg hc

/-! ## What the two pull loops guarantee -/

theorem fillNonEnd_ready_props :
    ∀ (chunks : List (List Nat)) (st st' : _Buffer) (ch' : List (List Nat)),
    fillNonEnd st chunks = .ready st' ch' →
    st'.data ++ ch'.flatten = st.data ++ chunks.flatten
    ∧ (¬ ∀ b ∈ st'.data, b = _END)
    ∧ (∀ c ∈ ch', c ∈ chunks)
    ∧ st'.pos = st.pos
    ∧ (st.bytes_read = st.pos + st.data.length
        → st'.bytes_read = st'.pos + st'.data.length) := by
  intro chunks
  induction chunks with
  | nil =>
    intro st st' ch' h
    by_cases hc : ∀ b ∈ st.data, b = _END
    · rw [fillNonEnd_all_nil hc] at h
      exact FillRes.noConfusion h
    · rw [fillNonEnd_not_all [] hc] at h
      injection h with h1 h2
      subst h1
      subst h2
      exact ⟨by simp, hc, by simp, rfl, id⟩
  | cons c rest ih =>
    intro st st' ch' h
    by_cases hc : ∀ b ∈ st.data, b = _END
    · by_cases hce : c = []
      · subst hce
        rw [fillNonEnd_all_cons_nil rest hc] at h
        exact FillRes.noConfusion h
      · rw [fillNonEnd_all_cons rest hc hce] at h
        obtain ⟨e1, e2, e3, e4, e5⟩ := ih _ _ _ h
        refine ⟨?_, e2, ?_, e4, ?_⟩
        · rw [e1]
          simp [List.append_assoc]
        · exact fun d hd => List.mem_cons_of_mem c (e3 d hd)
        · intro hInv
          apply e5
          show st.bytes_read + c.length = st.pos + (st.data ++ c).length
          rw [List.length_append]
          omega
    · rw [fillNonEnd_not_all (c :: rest) hc] at h
      injection h with h1 h2
      subst h1
      subst h2
      exact ⟨rfl, hc, fun d hd => hd, rfl, id⟩

theorem fillNonEnd_eof_props :
    ∀ (chunks : List (List Nat)) (st st' : _Buffer) (ch' : List (List Nat)),
    fillNonEnd st chunks = .eof st' ch' →
    st'.data ++ ch'.flatten = st.data ++ chunks.flatten
    ∧ st'.pos = st.pos
    ∧ (st.bytes_read = st.pos + st.data.length
        → st'.bytes_read = st'.pos + st'.data.length)
    ∧ ((∀ c ∈ chunks, c ≠ []) → (∀ b ∈ st'.data, b = _END) ∧ ch' = []) := by
  intro chunks
  induction chunks with
  | nil =>
    intro st st' ch' h
    by_cases hc : ∀ b ∈ st.data, b = _END
    · rw [fillNonEnd_all_nil hc] at h
      injection h with h1 h2
      subst h1
      subst h2
      exact ⟨by simp, rfl, id, fun _ => ⟨hc, rfl⟩⟩
    · rw [fillNonEnd_not_all [] hc] at h
      exact FillRes.noConfusion h
  | cons c rest ih =>
    intro st st' ch' h
    by_cases hc : ∀ b ∈ st.data, b = _END
    · by_cases hce : c = []
      · subst hce
        rw [fillNonEnd_all_cons_nil rest hc] at h
        injection h with h1 h2
        subst h1
        subst h2
        refine ⟨by simp, rfl, id, fun hne => absurd rfl (hne [] (by simp))⟩
      · rw [fillNonEnd_all_cons rest hc hce] at h
        obtain ⟨e1, e2, e3, e4⟩ := ih _ _ _ h
        refine ⟨?_, e2, ?_, ?_⟩
        · rw [e1]
          simp [List.append_assoc]
        · intro hInv
          apply e3
          show st.bytes_read + c.length = st.pos + (st.data ++ c).length
          rw [List.length_append]
          omega
        · exact fun hne => e4 fun d hd => hne d (List.mem_cons_of_mem c hd)
    · rw [fillNonEnd_not_all (c :: rest) hc] at h
      exact FillRes.noConfusion h

theorem fillHasEnd_ready_props :
    ∀ (chunks : List (List Nat)) (st st' : _Buffer) (ch' : List (List Nat)),
    fillHasEnd st chunks = .ready st' ch' →
    st'.data ++ ch'.flatten = st.data ++ chunks.flatten
    ∧ _END ∈ st'.data
    ∧ (∀ c ∈ ch', c ∈ chunks)
    ∧ st'.pos = st.pos
    ∧ (st.bytes_read = st.pos + st.data.length
        → st'.bytes_read = st'.pos + st'.data.length)
    ∧ (∃ e, st'.data = st.data ++ e) := by
  intro chunks
  induction chunks with
  | nil =>
    intro st st' ch' h
    by_cases hc : _END ∈ st.data
    · rw [fillHasEnd_mem [] hc] at h
      injection h with h1 h2
      subst h1
      subst h2
      exact ⟨by simp, hc, by simp, rfl, id, [], by simp⟩
    · rw [fillHasEnd_not_mem_nil hc] at h
      exact FillRes.noConfusion h
  | cons c rest ih =>
    intro st st' ch' h
    by_cases hc : _END ∈ st.data
    · rw [fillHasEnd_mem (c :: rest) hc] at h
      injection h with h1 h2
      subst h1
      subst h2
      exact ⟨rfl, hc, fun d hd => hd, rfl, id, [], by simp⟩
    · by_cases hce : c = []
      · subst hce
        rw [fillHasEnd_not_mem_cons_nil rest hc] at h
        exact FillRes.noConfusion h
      · rw [fillHasEnd_not_mem_cons rest hc hce] at h
        obtain ⟨e1, e2, e3, e4, e5, e, he⟩ := ih _ _ _ h
        refine ⟨?_, e2, ?_, e4, ?_, c ++ e, ?_⟩
        · rw [e1]
          simp [List.append_assoc]
        · exact fun d hd => List.mem_cons_of_mem c (e3 d hd)
        · intro hInv
          apply e5
          show st.bytes_read + c.length = st.pos + (st.data ++ c).length
          rw [List.length_append]
          omega
        · rw [he]
          simp [List.append_assoc]

theorem fillHasEnd_eof_props :
    ∀ (chunks : List (List Nat)) (st st' : _Buffer) (ch' : List (List Nat)),
    fillHasEnd st chunks = .eof st' ch' →
    st'.data ++ ch'.flatten = st.data ++ chunks.flatten
    ∧ st'.pos = st.pos
    ∧ (st.bytes_read = st.pos + st.data.length
        → st'.bytes_read = st'.pos + st'.data.length)
    ∧ ((∀ c ∈ chunks, c ≠ []) → _END ∉ st'.data ∧ ch' = []) := by
  intro chunks
  induction chunks with
  | nil =>
    intro st st' ch' h
    by_cases hc : _END ∈ st.data
    · rw [fillHasEnd_mem [] hc] at h
      exact FillRes.noConfusion h
    · rw [fillHasEnd_not_mem_nil hc] at h
      injection h with h1 h2
      subst h1
      subst h2
      exact ⟨by simp, rfl, id, fun _ => ⟨hc, rfl⟩⟩
  | cons c rest ih =>
    intro st st' ch' h
    by_cases hc : _END ∈ st.data
    · rw [fillHasEnd_mem (c :: rest) hc] at h
      exact FillRes.noConfusion h
    · by_cases hce : c = []
      · subst hce
        rw [fillHasEnd_not_mem_cons_nil rest hc] at h
        injection h with h1 h2
        subst h1
        subst h2
        refine ⟨by simp, rfl, id, fun hne => absurd rfl (hne [] (by simp))⟩
      · rw [fillHasEnd_not_mem_cons rest hc hce] at h
        obtain ⟨e1, e2, e3, e4⟩ := ih _ _ _ h
        refine ⟨?_, e2, ?_, ?_⟩
        · rw [e1]
          simp [List.append_assoc]
        · intro hInv
          apply e3
          show st.bytes_read + c.length = st.pos + (st.data ++ c).length
          rw [List.length_append]
          omega
        · exact fun hne => e4 fun d hd => hne d (List.mem_cons_of_mem c hd)

/-! ## How `get` evaluates, given the results of its two pull loops -/

theorem get_eq_of_fills {st st1 st3 : _Buffer} {chunks ch1 ch3 : List (List Nat)}
    (hf1 : fillNonEnd st chunks = .ready st1 ch1)
    (hf3 : fillHasEnd ⟨st1.data.dropWhile isEnd, st1.bytes_read,
        st1.pos + (st1.data.length - (st1.data.dropWhile isEnd).length)⟩ ch1
      = .ready st3 ch3) :
    st.get chunks
      = .msg (decode (st3.data.take (findEnd st3.data)))
        ⟨st3.data.drop (findEnd st3.data + 1), st3.bytes_read,
          st3.pos + (findEnd st3.data + 1)⟩ ch3 := by
  unfold _Buffer.get
  simp only [hf1, hf3]

theorem get_eof_of_fill1 {st st1 : _Buffer} {chunks ch1 : List (List Nat)}
    (hf1 : fillNonEnd st chunks = .eof st1 ch1) :
    st.get chunks = .eof st1 ch1 := by
  unfold _Buffer.get
  simp only [hf1]

theorem get_eof_of_fill3 {st st1 st3 : _Buffer} {chunks ch1 ch3 : List (List Nat)}
    (hf1 : fillNonEnd st chunks = .ready st1 ch1)
    (hf3 : fillHasEnd ⟨st1.data.dropWhile isEnd, st1.bytes_read,
        st1.pos + (st1.data.length - (st1.data.dropWhile isEnd).length)⟩ ch1
      = .eof st3 ch3) :
    st.get chunks = .eof st3 ch3 := by
  unfold _Buffer.get
  simp only [hf1, hf3]

/-! ## The observable behaviour of a single `get` call -/

theorem get_msg_spec {st : _Buffer} {chunks : List (List Nat)}
    (hne : ∀ c ∈ chunks, c ≠ []) (hmem : _END ∈ pending st chunks) :
    ∃ st' ch',
      st.get chunks
        = .msg (decode ((pending st chunks).take (findEnd (pending st chunks)))) st' ch'
      ∧ st'.data ++ ch'.flatten
          = (pending st chunks).drop (findEnd (pending st chunks) + 1)
      ∧ (∀ c ∈ ch', c ≠ []) := by
  cases hf1 : fillNonEnd st chunks with
  | eof st1 ch1 =>
    exfalso
    obtain ⟨hcomb, _, _, hrest⟩ := fillNonEnd_eof_props _ _ _ _ hf1
    obtain ⟨hall, hch⟩ := hrest hne
    apply absurd hmem
    unfold pending
    rw [← hcomb, hch]
    simp only [List.flatten_nil, List.append_nil]
    rw [dropWhile_all_end hall]
    simp
  | ready st1 ch1 =>
    obtain ⟨hcomb1, hna, hsub1, _, _⟩ := fillNonEnd_ready_props _ _ _ _ hf1
    have hne1 : ∀ c ∈ ch1, c ≠ [] := fun c hc => hne c (hsub1 c hc)
    have hpend : pending st chunks = st1.data.dropWhile isEnd ++ ch1.flatten := by
      unfold pending
      rw [← hcomb1, dropWhile_append_not_all _ hna]
    cases hf3 : fillHasEnd ⟨st1.data.dropWhile isEnd, st1.bytes_read,
        st1.pos + (st1.data.length - (st1.data.dropWhile isEnd).length)⟩ ch1 with
    | eof st3 ch3 =>
      exfalso
      obtain ⟨hcomb3, _, _, hrest3⟩ := fillHasEnd_eof_props _ _ _ _ hf3
      obtain ⟨hnot, hch3⟩ := hrest3 hne1
      apply hnot
      rw [hch3] at hcomb3
      simp only [List.flatten_nil, List.append_nil] at hcomb3
      rw [hpend] at hmem
      rw [hcomb3]
      exact hmem
    | ready st3 ch3 =>
      obtain ⟨hcomb3, hmem3, hsub3, _, _, _⟩ := fillHasEnd_ready_props _ _ _ _ hf3
      have hpend2 : pending st chunks = st3.data ++ ch3.flatten := by
        rw [hpend, ← hcomb3]
      have hlt := findEnd_lt_of_mem hmem3
      have hle : findEnd st3.data + 1 ≤ st3.data.length := hlt
      refine ⟨⟨st3.data.drop (findEnd st3.data + 1), st3.bytes_read,
          st3.pos + (findEnd st3.data + 1)⟩, ch3, ?_, ?_,
        fun c hc => hne1 c (hsub3 c hc)⟩
      · rw [get_eq_of_fills hf1 hf3]
        rw [hpend2, findEnd_append_of_mem _ hmem3,
          take_append_le _ (Nat.le_of_lt hlt)]
      · show st3.data.drop (findEnd st3.data + 1) ++ ch3.flatten = _
        rw [hpend2, findEnd_append_of_mem _ hmem3, drop_append_le _ hle]

theorem get_eof_spec {st : _Buffer} {chunks : List (List Nat)}
    (hmem : _END ∉ pending st chunks) :
    ∃ st' ch', st.get chunks = .eof st' ch' := by
  cases hf1 : fillNonEnd st chunks with
  | eof st1 ch1 => exact ⟨st1, ch1, get_eof_of_fill1 hf1⟩
  | ready st1 ch1 =>
    obtain ⟨hcomb1, hna, hsub1, _, _⟩ := fillNonEnd_ready_props _ _ _ _ hf1
    have hpend : pending st chunks = st1.data.dropWhile isEnd ++ ch1.flatten := by
      unfold pending
      rw [← hcomb1, dropWhile_append_not_all _ hna]
    cases hf3 : fillHasEnd ⟨st1.data.dropWhile isEnd, st1.bytes_read,
        st1.pos + (st1.data.length - (st1.data.dropWhile isEnd).length)⟩ ch1 with
    | eof st3 ch3 => exact ⟨st3, ch3, get_eof_of_fill3 hf1 hf3⟩
    | ready st3 ch3 =>
      exfalso
      obtain ⟨hcomb3, hmem3, _, _, _, _⟩ := fillHasEnd_ready_props _ _ _ _ hf3
      apply hmem
      rw [hpend, ← hcomb3]
      exact List.mem_append_left _ hmem3

theorem get_inv {st : _Buffer} (chunks : List (List Nat))
    (hInv : st.bytes_read = st.pos + st.data.length) :
    (∀ m st' ch', st.get chunks = .msg m st' ch'
        → st'.bytes_read = st'.pos + st'.data.length)
    ∧ (∀ st' ch', st.get chunks = .eof st' ch'
        → st'.bytes_read = st'.pos + st'.data.length) := by
  cases hf1 : fillNonEnd st chunks with
  | eof st1 ch1 =>
    have hg := get_eof_of_fill1 hf1
    obtain ⟨_, _, hinv1, _⟩ := fillNonEnd_eof_props _ _ _ _ hf1
    constructor
    · intro m st' ch' h
      rw [hg] at h
      exact GetRes.noConfusion h
    · intro st' ch' h
      rw [hg] at h
      injection h with h1 h2
      subst h1
      exact hinv1 hInv
  | ready st1 ch1 =>
    obtain ⟨_, _, _, _, hinv1⟩ := fillNonEnd_ready_props _ _ _ _ hf1
    have hInv1 : st1.bytes_read = st1.pos + st1.data.length := hinv1 hInv
    have hdwlen := dropWhile_len_le st1.data
    have hInv2 : st1.bytes_read
        = (st1.pos + (st1.data.length - (st1.data.dropWhile isEnd).length))
          + (st1.data.dropWhile isEnd).length := by
      omega
    cases hf3 : fillHasEnd ⟨st1.data.dropWhile isEnd, st1.bytes_read,
        st1.pos + (st1.data.length - (st1.data.dropWhile isEnd).length)⟩ ch1 with
    | eof st3 ch3 =>
      have hg := get_eof_of_fill3 hf1 hf3
      obtain ⟨_, _, hinv3, _⟩ := fillHasEnd_eof_props _ _ _ _ hf3
      constructor
      · intro m st' ch' h
        rw [hg] at h
        exact GetRes.noConfusion h
      · intro st' ch' h
        rw [hg] at h
        injection h with h1 h2
        subst h1
        exact hinv3 hInv2
    | ready st3 ch3 =>
      have hg := get_eq_of_fills hf1 hf3
      obtain ⟨_, hmem3, _, _, hinv3, _⟩ := fillHasEnd_ready_props _ _ _ _ hf3
      have hInv3 : st3.bytes_read = st3.pos + st3.data.length := hinv3 hInv2
      have hlt := findEnd_lt_of_mem hmem3
      constructor
      · intro m st' ch' h
        rw [hg] at h
        injection h with h1 h2
        subst h2
        show st3.bytes_read
          = st3.pos + (findEnd st3.data + 1)
            + (st3.data.drop (findEnd st3.data + 1)).length
        rw [List.length_drop]
        omega
      · intro st' ch' h
        rw [hg] at h
        exact GetRes.noConfusion h

theorem unstuffSpec_ne_nil {l : List Nat} (h : l ≠ []) : unstuffSpec l ≠ [] := by
  cases l with
  | nil => exact absurd rfl h
  | cons x t =>
    cases t with
    | nil => simp [unstuffSpec]
    | cons y u =>
      show (if x = 0xdb ∧ y = 0xdc then 0xc0 :: unstuffSpec u
        else if x = 0xdb ∧ y = 0xdd then 0xdb :: unstuffSpec u
        else x :: unstuffSpec (y :: u)) ≠ []
      split
      · simp
      · split
        · simp
        · simp

theorem get_msg_ne_nil {st st' : _Buffer} {chunks ch' : List (List Nat)}
    {m : List Nat} (h : st.get chunks = .msg m st' ch') : m ≠ [] := by
  cases hf1 : fillNonEnd st chunks with
  | eof st1 ch1 =>
    rw [get_eof_of_fill1 hf1] at h
    exact GetRes.noConfusion h
  | ready st1 ch1 =>
    obtain ⟨_, hna, _, _, _⟩ := fillNonEnd_ready_props _ _ _ _ hf1
    obtain ⟨x, xs, hdw, hx⟩ := dropWhile_head_ne hna
    cases hf3 : fillHasEnd ⟨st1.data.dropWhile isEnd, st1.bytes_read,
        st1.pos + (st1.data.length - (st1.data.dropWhile isEnd).length)⟩ ch1 with
    | eof st3 ch3 =>
      rw [get_eof_of_fill3 hf1 hf3] at h
      exact GetRes.noConfusion h
    | ready st3 ch3 =>
      rw [get_eq_of_fills hf1 hf3] at h
      injection h with hm h2
      obtain ⟨_, _, _, _, _, e, he⟩ := fillHasEnd_ready_props _ _ _ _ hf3
      have hhead : st3.data = x :: (xs ++ e) := by
        rw [he]
        show st1.data.dropWhile isEnd ++ e = _
        rw [hdw]
        rfl
      have hfe : findEnd st3.data = findEnd (xs ++ e) + 1 := by
        rw [hhead]
        exact findEnd_cons_ne hx _
      have hpack : st3.data.take (findEnd st3.data)
          = x :: (xs ++ e).take (findEnd (xs ++ e)) := by
        rw [hfe, hhead, List.take_succ_cons]
      rw [← hm, decode_no_end (take_findEnd_no_end st3.data)]
      apply unstuffSpec_ne_nil
      rw [hpack]
      simp

/-! ## The stream of messages depends only on the stream of bytes -/

theorem extract_drop_lt {s : List Nat} (h : _END ∈ s.dropWhile isEnd) :
    ((s.dropWhile isEnd).drop (findEnd (s.dropWhile isEnd) + 1)).length < s.length := by
  have h1 := dropWhile_len_le s
  have h2 := findEnd_lt_of_mem h
  rw [List.length_drop]
  omega

theorem extractAllF_congr : ∀ (f1 : Nat) (s : List Nat) (f2 : Nat),
    s.length < f1 → s.length < f2 → extractAllF f1 s = extractAllF f2 s := by
  intro f1
  induction f1 with
  | zero =>
    intro s f2 h1 _
    exact absurd h1 (by omega)
  | succ g ih =>
    intro s f2 h1 h2
    cases f2 with
    | zero => exact absurd h2 (by omega)
    | succ g2 =>
      by_cases hm : _END ∈ s.dropWhile isEnd
      · have hlt := extract_drop_lt hm
        rw [extractAllF.eq_2, extractAllF.eq_2, if_pos hm, if_pos hm]
        congr 1
        exact ih _ _ (by omega) (by omega)
      · rw [extractAllF.eq_2, extractAllF.eq_2, if_neg hm, if_neg hm]

theorem extractAll_eq (s : List Nat) :
    extractAll s
      = if _END ∈ s.dropWhile isEnd then
          decode ((s.dropWhile isEnd).take (findEnd (s.dropWhile isEnd)))
            :: extractAll ((s.dropWhile isEnd).drop (findEnd (s.dropWhile isEnd) + 1))
        else [] := by
  by_cases hm : _END ∈ s.dropWhile isEnd
  · rw [if_pos hm]
    show extractAllF (s.length + 1) s = _
    rw [extractAllF.eq_2, if_pos hm]
    congr 1
    show extractAllF s.length ((s.dropWhile isEnd).drop (findEnd (s.dropWhile isEnd) + 1))
      = extractAllF
          (((s.dropWhile isEnd).drop (findEnd (s.dropWhile isEnd) + 1)).length + 1)
          ((s.dropWhile isEnd).drop (findEnd (s.dropWhile isEnd) + 1))
    exact extractAllF_congr _ _ _ (extract_drop_lt hm) (by omega)
  · rw [if_neg hm]
    show extractAllF (s.length + 1) s = _
    rw [extractAllF.eq_2, if_neg hm]

theorem driveF_eq : ∀ (fuel : Nat) (st : _Buffer) (chunks : List (List Nat)),
    (∀ c ∈ chunks, c ≠ []) →
    st.data.length + chunks.flatten.length < fuel →
    driveF fuel st chunks = extractAll (st.data ++ chunks.flatten) := by
  intro fuel
  induction fuel with
  | zero =>
    intro st chunks _ h
    exact absurd h (by omega)
  | succ f ih =>
    intro st chunks hne hlt
    by_cases hm : _END ∈ pending st chunks
    · obtain ⟨st', ch', hg, hcomb', hne'⟩ := get_msg_spec hne hm
      have hplen : (pending st chunks).length
          ≤ st.data.length + chunks.flatten.length := by
        have h1 := dropWhile_len_le (st.data ++ chunks.flatten)
        rw [List.length_append] at h1
        exact h1
      have hpne : pending st chunks ≠ [] := fun hp => by
        rw [hp] at hm
        cases hm
      have h3 : 1 ≤ (pending st chunks).length := by
        cases hp : pending st chunks with
        | nil => exact absurd hp hpne
        | cons a b => simp [hp]
      have hlt' : st'.data.length + ch'.flatten.length < f := by
        have h2 := congrArg List.length hcomb'
        rw [List.length_append, List.length_drop] at h2
        omega
      simp only [driveF, hg]
      rw [ih _ _ hne' hlt', hcomb']
      have hm2 : _END ∈ (st.data ++ chunks.flatten).dropWhile isEnd := hm
      rw [extractAll_eq (st.data ++ chunks.flatten), if_pos hm2]
      rfl
    · obtain ⟨st', ch', hg⟩ := get_eof_spec hm
      simp only [driveF, hg]
      have hm2 : _END ∉ (st.data ++ chunks.flatten).dropWhile isEnd := hm
      rw [extractAll_eq (st.data ++ chunks.flatten), if_neg hm2]

theorem drive_eq {st : _Buffer} {chunks : List (List Nat)}
    (hne : ∀ c ∈ chunks, c ≠ []) :
    drive st chunks = extractAll (st.data ++ chunks.flatten) :=
  driveF_eq _ _ _ hne (by omega)

/-! ## How a well-formed frame at the head of the stream is consumed -/

theorem encode_append_analysis (m t : List Nat) (hm : m ≠ []) :
    (encode m ++ t).dropWhile isEnd = stuffSpec m ++ _END :: t
    ∧ findEnd (stuffSpec m ++ _END :: t) = (stuffSpec m).length
    ∧ (stuffSpec m ++ _END :: t).take ((stuffSpec m).length) = stuffSpec m
    ∧ (stuffSpec m ++ _END :: t).drop ((stuffSpec m).length + 1) = t := by
  have hno := stuffSpec_no_end m
  have hnn := stuffSpec_ne_nil hm
  refine ⟨?_, findEnd_no_end_append t hno, ?_, ?_⟩
  · rw [encode_eq]
    rw [show (_END :: (stuffSpec m ++ [_END])) ++ t
        = _END :: ((stuffSpec m ++ [_END]) ++ t) from rfl]
    rw [dropWhile_end_cons rfl, List.append_assoc]
    rw [show ([_END] : List Nat) ++ t = _END :: t from rfl]
    obtain ⟨x, xs, hS⟩ : ∃ x xs, stuffSpec m = x :: xs := by
      cases hSm : stuffSpec m with
      | nil => exact absurd hSm hnn
      | cons a b => exact ⟨a, b, rfl⟩
    rw [hS]
    rw [show (x :: xs) ++ _END :: t = x :: (xs ++ _END :: t) from rfl]
    exact dropWhile_ne_cons (hno x (by rw [hS]; simp)) _
  · rw [take_append_le _ (Nat.le_refl _), List.take_length]
  · rw [show stuffSpec m ++ _END :: t = (stuffSpec m ++ [_END]) ++ t from by simp]
    rw [show (stuffSpec m).length + 1 = (stuffSpec m ++ [_END]).length from by simp]
    rw [drop_append_le _ (Nat.le_refl _), List.drop_length]
    simp

/-! ## Counter invariant on reachable assembler states -/

theorem reachable_inv {st : _Buffer} (h : Reachable st) :
    st.bytes_read = st.pos + st.data.length := by
  induction h with
  | reset p => simp
  | msgStep hr hg ih => exact (get_inv _ ih).1 _ _ _ hg
  | eofStep hr hg ih => exact (get_inv _ ih).2 _ _ hg

/-! ## The claims -/

/-- Claim C1: for every byte sequence `m`, including the empty one,
`decode (encode m) = m` — decoding is the exact inverse of encoding for any
frame produced by `encode`. -/
theorem slip_C1_roundtrip (m : List Nat) : decode (encode m) = m :=
  decode_encode m

/-- Claim C3: `encode` returns `END`, then the message with every `ESC`
byte replaced by the escaped-ESC sequence and every `END` byte replaced by
the escaped-END sequence — equivalently, the per-byte map `stuffSpec`, under
which bytes introduced by ESC-escaping are never re-escaped — then a
trailing `END`; it is total, and sends `b'\xc0'` to `b'\xc0\xdb\xdc\xc0'`
and `b'\xdb'` to `b'\xc0\xdb\xdd\xc0'`. -/
theorem slip_C3_encode_contract :
    (∀ m : List Nat, encode m = _END :: (stuffSpec m ++ [_END]))
    ∧ encode [0xc0] = [0xc0, 0xdb, 0xdc, 0xc0]
    ∧ encode [0xdb] = [0xc0, 0xdb, 0xdd, 0xc0] :=
  ⟨encode_eq, by decide, by decide⟩

/-- Claim C4: `decode` is total: it strips any leading and trailing run of
`END` bytes (any count, including none) and then replaces every escaped-END
sequence by a literal `END` and every escaped-ESC sequence by a literal
`ESC` (the simultaneous single-pass `unstuffSpec`); in particular
`decode (b'\xc0\xc0\xc0text\xc0\xc0') = b'text'` and
`decode (b'text') = b'text'`. -/
theorem slip_C4_decode_contract :
    (∀ p : List Nat, decode p = unstuffSpec (stripSpec p))
    ∧ decode [0xc0, 0xc0, 0xc0, 0x74, 0x65, 0x78, 0x74, 0xc0, 0xc0]
        = [0x74, 0x65, 0x78, 0x74]
    ∧ decode [0x74, 0x65, 0x78, 0x74] = [0x74, 0x65, 0x78, 0x74] :=
  ⟨fun p => seq_eq_sim (pyStrip p), by decide, by decide⟩

/-- Claim C2, counterexample: the claim quantifies over every byte sequence
including the empty one, but for `m1 = b''` and `m2 = b'\x41'` the
concatenation `encode m1 ++ encode m2` delivered in one pull yields
`b'\x41'` — not `m1 = b''` — from the first `get` call: the empty frame is
absorbed as delimiter padding. -/
theorem slip_C2_counterexample :
    ([[0xc0, 0xc0, 0xc0, 0x41, 0xc0]] : List (List Nat)).flatten
        = encode [] ++ encode [0x41]
    ∧ msgOf (_Buffer.get initBuffer [[0xc0, 0xc0, 0xc0, 0x41, 0xc0]]) = some [0x41]
    ∧ some [0x41] ≠ some ([] : List Nat) :=
  ⟨by decide, by decide, by decide⟩

/-- Claim C2 (amended: for non-empty `m1` and `m2`): feeding the
concatenation `encode m1 ++ encode m2` to the assembler as any sequence of
non-empty pulls — including pulls that split in the middle of a two-byte
escape sequence — yields exactly `m1` from the first `get` call and `m2`
from the second. -/
theorem slip_C2_frame_independence (m1 m2 : List Nat) (chunks : List (List Nat))
    (h1 : m1 ≠ []) (h2 : m2 ≠ []) (hne : ∀ c ∈ chunks, c ≠ [])
    (hjoin : chunks.flatten = encode m1 ++ encode m2) :
    ∃ st1 ch1 st2 ch2,
      _Buffer.get initBuffer chunks = .msg m1 st1 ch1
      ∧ _Buffer.get st1 ch1 = .msg m2 st2 ch2 := by
  obtain ⟨A1, A2, A3, A4⟩ := encode_append_analysis m1 (encode m2) h1
  have hcomb0 : initBuffer.data ++ chunks.flatten = encode m1 ++ encode m2 := by
    simp [initBuffer, hjoin]
  have hpend1 : pending initBuffer chunks = stuffSpec m1 ++ _END :: encode m2 := by
    unfold pending
    rw [hcomb0]
    exact A1
  have hmem1 : _END ∈ pending initBuffer chunks := by
    rw [hpend1]
    exact List.mem_append_right _ (by simp)
  obtain ⟨st1, ch1, hg1, hcomb1, hne1⟩ := get_msg_spec hne hmem1
  rw [hpend1, A2, A3, decode_stuffSpec] at hg1
  rw [hpend1, A2, A4] at hcomb1
  obtain ⟨B1, B2, B3, B4⟩ := encode_append_analysis m2 [] h2
  have hB1 : (encode m2).dropWhile isEnd = stuffSpec m2 ++ _END :: [] := by
    rwa [List.append_nil] at B1
  have hpend2 : pending st1 ch1 = stuffSpec m2 ++ _END :: [] := by
    unfold pending
    rw [hcomb1, hB1]
  have hmem2 : _END ∈ pending st1 ch1 := by
    rw [hpend2]
    exact List.mem_append_right _ (by simp)
  obtain ⟨st2, ch2, hg2, hcomb2, hne2⟩ := get_msg_spec hne1 hmem2
  rw [hpend2, B2, B3, decode_stuffSpec] at hg2
  exact ⟨st1, ch1, st2, ch2, hg1, hg2⟩

theorem slip_C2_witness :
    ∃ st1 ch1 st2 ch2,
      _Buffer.get initBuffer [[0xc0, 0xdb], [0xdd, 0xc0, 0xc0, 0x41], [0xc0]]
          = .msg [0xdb] st1 ch1
      ∧ _Buffer.get st1 ch1 = .msg [0x41] st2 ch2 :=
  slip_C2_frame_independence [0xdb] [0x41]
    [[0xc0, 0xdb], [0xdd, 0xc0, 0xc0, 0x41], [0xc0]]
    (by decide) (by decide) (by decide) (by decide)

/-- Claim C5: `get` fails with the end-of-stream condition exactly when the
stream runs out while the assembler is still waiting for a complete frame;
in particular an assembler whose read primitive returns zero bytes
immediately fails on the very first `get` call with its empty-buffer state
unchanged — so every subsequent call fails the same way — and, the `eof`
result carrying no message, no partial or garbage message is returned. -/
theorem slip_C5_eof :
    (∀ p : Nat, _Buffer.get ⟨[], p, p⟩ [] = .eof ⟨[], p, p⟩ [])
    ∧ ∀ (st : _Buffer) (chunks : List (List Nat)), (∀ c ∈ chunks, c ≠ []) →
        ((∃ st' ch', _Buffer.get st chunks = .eof st' ch')
          ↔ _END ∉ pending st chunks) := by
  constructor
  · intro p
    exact get_eof_of_fill1 (fillNonEnd_all_nil (by simp))
  · intro st chunks hne
    constructor
    · rintro ⟨st', ch', hg⟩ hmem
      obtain ⟨st'', ch'', hg', _, _⟩ := get_msg_spec hne hmem
      rw [hg] at hg'
      exact GetRes.noConfusion hg'
    · exact fun hmem => get_eof_spec hmem

theorem slip_C5_witness :
    ∃ st' ch', _Buffer.get ⟨[], 5, 5⟩ [[0x41]] = .eof st' ch' :=
  (slip_C5_eof.2 ⟨[], 5, 5⟩ [[0x41]] (by decide)).mpr (by decide)

/-- Claim C6: feeding a complete multi-frame byte sequence — the
concatenation of the encodings of any list of messages — to the assembler
split into any succession of non-empty pulls produces, over repeated `get`
calls, the same sequence of decoded messages as delivering the whole byte
sequence in a single pull. -/
theorem slip_C6_chunk_invariance (msgs : List (List Nat))
    (chunks : List (List Nat)) (hne : ∀ c ∈ chunks, c ≠ [])
    (hjoin : chunks.flatten = (msgs.map encode).flatten) :
    drive initBuffer chunks = drive initBuffer [(msgs.map encode).flatten] := by
  by_cases hnil : (msgs.map encode).flatten = []
  · have hch : chunks = [] := by
      cases chunks with
      | nil => rfl
      | cons c rest =>
        exfalso
        rw [hnil] at hjoin
        have h1 : c ++ rest.flatten = [] := by simpa using hjoin
        exact hne c (by simp) (List.append_eq_nil.mp h1).1
    subst hch
    rw [hnil]
    decide
  · have hne2 : ∀ c ∈ [(msgs.map encode).flatten], c ≠ [] := by
      intro c hc
      have hc2 : c = (msgs.map encode).flatten := by simpa using hc
      rw [hc2]
      exact hnil
    rw [drive_eq hne, drive_eq hne2, hjoin]
    simp [initBuffer]

theorem slip_C6_witness :
    drive initBuffer [[0xc0, 0x41], [0xc0, 0xc0, 0x42, 0xc0]]
      = drive initBuffer [(([[0x41], [0x42]] : List (List Nat)).map encode).flatten] :=
  slip_C6_chunk_invariance [[0x41], [0x42]] [[0xc0, 0x41], [0xc0, 0xc0, 0x42, 0xc0]]
    (by decide) (by decide)

/-- Claim C7: after `reset p` on any assembler state the internal buffer is
empty, both counters equal `p`, and `unread_bytes` is `0`. -/
theorem slip_C7_reset (st : _Buffer) (p : Nat) :
    (st.reset p).data = [] ∧ (st.reset p).bytes_read = p ∧ (st.reset p).pos = p
    ∧ (st.reset p).unread_bytes = 0 :=
  ⟨rfl, rfl, rfl, by simp [_Buffer.reset, _Buffer.unread_bytes]⟩

/-- Claim C8: in every assembler state reachable from construction or any
`reset p` by `get` calls, successful or failing, `pos ≤ bytes_read` holds
and `unread_bytes` equals `bytes_read - pos`. -/
theorem slip_C8_counters (st : _Buffer) (h : Reachable st) :
    st.pos ≤ st.bytes_read ∧ st.unread_bytes = st.bytes_read - st.pos := by
  have hi := reachable_inv h
  exact ⟨by omega, rfl⟩

theorem slip_C8_witness :
    initBuffer.pos ≤ initBuffer.bytes_read
    ∧ initBuffer.unread_bytes = initBuffer.bytes_read - initBuffer.pos :=
  slip_C8_counters initBuffer (Reachable.reset 0)

/-- Claim C9: in every reachable assembler state `bytes_read` equals `pos`
plus the length of the internal buffer — every operation preserves this
equality — so `unread_bytes` is exactly the number of bytes currently held
in the buffer. -/
theorem slip_C9_buffer_len (st : _Buffer) (h : Reachable st) :
    st.bytes_read = st.pos + st.data.length
    ∧ st.unread_bytes = st.data.length := by
  have hi := reachable_inv h
  refine ⟨hi, ?_⟩
  unfold _Buffer.unread_bytes
  omega

theorem slip_C9_witness :
    initBuffer.bytes_read = initBuffer.pos + initBuffer.data.length
    ∧ initBuffer.unread_bytes = initBuffer.data.length :=
  slip_C9_buffer_len initBuffer (Reachable.reset 0)

/-- Claim C10: every message a successful `get` call returns is non-empty;
the frame encoding the empty message, `encode b'' = b'\xc0\xc0'`, is
absorbed as delimiter padding by the assembler, so the empty message,
though encodable, is never delivered. -/
theorem slip_C10_nonempty_messages :
    encode [] = [_END, _END]
    ∧ (∀ (st : _Buffer) (chunks : List (List Nat)) (m : List Nat)
        (st' : _Buffer) (ch' : List (List Nat)),
        _Buffer.get st chunks = .msg m st' ch' → m ≠ [])
    ∧ ∀ s : List Nat, extractAll (encode [] ++ s) = extractAll s := by
  refine ⟨by decide, fun st chunks m st' ch' h => get_msg_ne_nil h, fun s => ?_⟩
  have h2 : encode [] ++ s = _END :: _END :: s := rfl
  rw [h2]
  have hdw : (_END :: _END :: s).dropWhile isEnd = s.dropWhile isEnd := by
    rw [dropWhile_end_cons rfl, dropWhile_end_cons rfl]
  rw [extractAll_eq (_END :: _END :: s), extractAll_eq s, hdw]

theorem slip_C10_witness : ([0x41] : List Nat) ≠ [] :=
  slip_C10_nonempty_messages.2.1 ⟨[], 0, 0⟩ [[0xc0, 0x41, 0xc0]] [0x41]
    ⟨[], 3, 3⟩ [] (by decide)
